import Mathlib

/-!
Verification of the git_viz log pipeline and identity store.

The definitions below are a shallow embedding of the Python sources:

* `GitViz.filter_log_by_date` embeds `GitVizProcessor._filter_log_by_date`
  (src/git_viz/core.py): lines are kept when the first pipe-delimited field
  parses as a Python float inside the closed range; bounds default to the
  infinities when absent; both-bounds-absent is a pass-through.
* `GitViz.combine_logs` embeds `GitVizProcessor._combine_logs`.
* `GitViz.convert_to_timestamp` embeds `platform_utils.convert_to_timestamp`;
  since Python's naive `datetime.timestamp()` interprets the parsed date in
  the local timezone, the embedding carries the local UTC offset explicitly.
* The `UMState` operations embed `UserManager` (user_manager.py), with the
  avatar directory modelled as an association list of written files and the
  PIL collaborator modelled by `thumbnail128`/`processAvatar` (an aspect-fit
  shrink into a 128x128 box followed by padding to a transparent square PNG).
-/

namespace GitViz

/-- The values of Python `float(...)` relevant to the filter: finite values
(modelled exactly as rationals), the two infinities and NaN. -/
inductive PyFloat where
  | finite (q : ℚ)
  | inf
  | ninf
  | nan
  deriving DecidableEq, Repr

/-- Python `<=` on floats: any comparison with NaN is false; `-inf` is below
everything else and `inf` above everything else. -/
def pyLe : PyFloat → PyFloat → Bool
  | .nan, _ => false
  | _, .nan => false
  | .ninf, _ => true
  | _, .ninf => false
  | _, .inf => true
  | .inf, _ => false
  | .finite x, .finite y => decide (x ≤ y)

/-- Python whitespace stripped by `float(...)` / `str.strip()`. -/
def pyIsSpace (c : Char) : Bool :=
  c = ' ' || c = '\t' || c = '\n' || c = '\r' || c = '\x0b' || c = '\x0c'

/-- Value of a list of decimal digit characters. -/
def natOfDigits (cs : List Char) : Nat :=
  cs.foldl (fun a c => a * 10 + (c.toNat - 48)) 0

/-- Embedding of Python `float(s)` on its decimal forms: optional surrounding
whitespace, optional sign, then `inf`/`infinity`/`nan` (case-insensitive) or
a decimal mantissa with optional fractional part and optional exponent.
(Underscore digit separators are not modelled; none of the inputs the
pipeline produces contain them.) -/
def parsePyFloat (s : String) : Option PyFloat :=
  let cs0 := s.data.dropWhile pyIsSpace
  let cs1 := (cs0.reverse.dropWhile pyIsSpace).reverse
  let sgncs : Int × List Char :=
    match cs1 with
    | '+' :: rest => (1, rest)
    | '-' :: rest => (-1, rest)
    | _ => (1, cs1)
  let sgn := sgncs.1
  let cs := sgncs.2
  let low := cs.map Char.toLower
  if low = ['i', 'n', 'f'] || low = ['i', 'n', 'f', 'i', 'n', 'i', 't', 'y'] then
    some (if sgn = 1 then PyFloat.inf else PyFloat.ninf)
  else if low = ['n', 'a', 'n'] then
    some PyFloat.nan
  else
    let intDigits := cs.takeWhile Char.isDigit
    let rest1 := cs.dropWhile Char.isDigit
    let fracrest : List Char × List Char :=
      match rest1 with
      | '.' :: r => (r.takeWhile Char.isDigit, r.dropWhile Char.isDigit)
      | _ => ([], rest1)
    let fracDigits := fracrest.1
    let rest2 := fracrest.2
    if intDigits.isEmpty && fracDigits.isEmpty then none
    else
      let n : Int := (natOfDigits (intDigits ++ fracDigits) : Int)
      let exp? : Option Int :=
        match rest2 with
        | [] => some 0
        | e :: r =>
          if e = 'e' || e = 'E' then
            let esgnr : Int × List Char :=
              match r with
              | '+' :: rr => (1, rr)
              | '-' :: rr => (-1, rr)
              | _ => (1, r)
            let eds := esgnr.2.takeWhile Char.isDigit
            if eds.isEmpty || !(esgnr.2.dropWhile Char.isDigit).isEmpty then none
            else some (esgnr.1 * (natOfDigits eds : Int))
          else none
      match exp? with
      | none => none
      | some e =>
        let k : Int := e - fracDigits.length
        some (PyFloat.finite
          (if 0 ≤ k then mkRat (sgn * n * 10 ^ k.toNat) 1 else mkRat (sgn * n) (10 ^ (-k).toNat)))

/-- Embedding of `line.split('|')[0]`: the prefix of the line before the first pipe. -/
def timestampField (line : String) : String :=
  String.mk (line.data.takeWhile (fun c => c ≠ '|'))

/-- The lower bound used by the filter: `convert_to_timestamp(start)` when a
start date was supplied, else `float('-inf')`. -/
def lowerBound : Option ℚ → PyFloat
  | some q => PyFloat.finite q
  | none => PyFloat.ninf

/-- The upper bound used by the filter: `convert_to_timestamp(end)` when an
end date was supplied, else `float('inf')`. -/
def upperBound : Option ℚ → PyFloat
  | some q => PyFloat.finite q
  | none => PyFloat.inf

/-- The per-line decision of `_filter_log_by_date`: parse the first field as a
float and keep the line when the closed range test passes; lines whose first
field does not parse are dropped (the `except` branch `continue`s). -/
def keepLine (lo hi : PyFloat) (line : String) : Bool :=
  match parsePyFloat (timestampField line) with
  | some t => pyLe lo t && pyLe t hi
  | none => false

/-- Embedding of `GitVizProcessor._filter_log_by_date`, at the granularity of
the list of input lines, with the date bounds already converted to epoch
values (`none` = bound not supplied). When neither bound is supplied the
original log is returned untouched; otherwise exactly the in-range lines are
written, in input order, each line verbatim. -/
def filter_log_by_date (start? end? : Option ℚ) (lines : List String) : List String :=
  if start?.isNone && end?.isNone then lines
  else lines.filter (keepLine (lowerBound start?) (upperBound end?))

/-- Gregorian leap-year test. -/
def isLeapYear (y : Nat) : Bool :=
  y % 4 == 0 && (y % 100 != 0 || y % 400 == 0)

/-- Days in a month of the proleptic Gregorian calendar. -/
def daysInMonth (y m : Nat) : Nat :=
  if m = 2 then (if isLeapYear y then 29 else 28)
  else if m = 4 || m = 6 || m = 9 || m = 11 then 30
  else 31

/-- Embedding of `str.split(sep)` on a list of characters (keeps empty chunks). -/
def splitOnChar (sep : Char) (cs : List Char) : List (List Char) :=
  cs.foldr
    (fun c acc =>
      match acc with
      | [] => [[c]]
      | g :: gs => if c = sep then [] :: g :: gs else (c :: g) :: gs)
    [[]]

/-- Embedding of `datetime.strptime(s, "%Y-%m-%d")`: three dash-separated
digit groups forming a valid calendar date with year 1..9999. -/
def parseDateYMD (s : String) : Option (Nat × Nat × Nat) :=
  match splitOnChar '-' s.data with
  | [ys, ms, ds] =>
    if !ys.isEmpty && ys.all Char.isDigit && !ms.isEmpty && ms.all Char.isDigit
        && !ds.isEmpty && ds.all Char.isDigit then
      let y := natOfDigits ys
      let m := natOfDigits ms
      let d := natOfDigits ds
      if 1 ≤ y ∧ y ≤ 9999 ∧ 1 ≤ m ∧ m ≤ 12 ∧ 1 ≤ d ∧ d ≤ daysInMonth y m then
        some (y, m, d)
      else none
    else none
  | _ => none

/-- Days from 1970-01-01 to the given Gregorian date (valid for `y ≥ 1`). -/
def daysFromCivil (y m d : Nat) : Int :=
  let y' := y - (if m ≤ 2 then 1 else 0)
  let era := y' / 400
  let yoe := y' % 400
  let mp := if 2 < m then m - 3 else m + 9
  let doy := (153 * mp + 2) / 5 + (d - 1)
  let doe := yoe * 365 + yoe / 4 - yoe / 100 + doy
  ((era * 146097 + doe : Nat) : Int) - 719468

/-- Epoch seconds of UTC midnight of a `YYYY-MM-DD` date: the interpretation
the specification ascribes to a date bound. -/
def utc_midnight_epoch (s : String) : Option Int :=
  (parseDateYMD s).map (fun t => daysFromCivil t.1 t.2.1 t.2.2 * 86400)

/-- Embedding of `platform_utils.convert_to_timestamp`: Python parses the date
with `strptime` into a naive datetime and calls `.timestamp()`, which
interprets it as midnight in the local timezone, so the result is the epoch of
UTC midnight minus the local UTC offset `tzOffset` (in seconds east of UTC). -/
def convert_to_timestamp (tzOffset : Int) (s : String) : Option Int :=
  (parseDateYMD s).map (fun t => daysFromCivil t.1 t.2.1 t.2.2 * 86400 - tzOffset)

/-- Embedding of `GitVizProcessor._combine_logs`: fold over the given file
paths in order, appending the content of each path that exists in the
filesystem `fs` and skipping the rest. -/
def combine_logs (fs : String → Option String) (files : List String) : String :=
  files.foldl (fun acc f => match fs f with | some c => acc ++ c | none => acc) ""

/-- One value of the `user_mappings` dict of `UserManager`: the
`{'canonical_name': ..., 'avatar': ...}` record kept per raw git name. -/
structure UserEntry where
  canonical_name : String
  avatar : Option String
  deriving DecidableEq, Repr

/-- A PNG file written into the avatar directory: its pixel dimensions and
format, as produced by `Image.save(..., 'PNG')`. -/
structure SavedImage where
  width : Nat
  height : Nat
  format : String
  deriving DecidableEq, Repr

/-- A source image supplied to `set_user_avatar` (the file at `avatar_path`,
which the operation requires to exist). -/
structure Img where
  width : Nat
  height : Nat
  deriving DecidableEq, Repr

/-- The state owned by `UserManager`: the `user_mappings` dict (an insertion
ordered association list keyed by raw git name) and the files written to the
avatar directory (an association list keyed by file name). -/
structure UMState where
  user_mappings : List (String × UserEntry)
  avatar_files : List (String × SavedImage)
  deriving DecidableEq, Repr

/-- The freshly initialized store: no mappings, no avatar files. -/
def emptyUM : UMState := ⟨[], []⟩

/-- Python `k in d` on the association-list model of a dict. -/
def hasKey {α : Type} (l : List (String × α)) (k : String) : Bool :=
  l.any (fun p => decide (p.1 = k))

/-- Python `d[k]` (as an `Option`) on the association-list model of a dict. -/
def lookup {α : Type} (l : List (String × α)) (k : String) : Option α :=
  (l.find? (fun p => decide (p.1 = k))).map (fun p => p.2)

/-- Python `d[k] = v`: update in place when the key is present, else append
(dicts preserve insertion order). -/
def setAssoc {α : Type} (l : List (String × α)) (k : String) (v : α) : List (String × α) :=
  if hasKey l k then l.map (fun p => if p.1 = k then (k, v) else p) else l ++ [(k, v)]

/-- Embedding of `UserManager.add_user_mapping`: a new key is inserted with
`avatar = None`; an existing key has only its `canonical_name` replaced. -/
def add_user_mapping (st : UMState) (git_name canonical_name : String) : UMState :=
  if hasKey st.user_mappings git_name then
    { st with
      user_mappings := st.user_mappings.map
        (fun p => if p.1 = git_name then (p.1, { p.2 with canonical_name := canonical_name }) else p) }
  else
    { st with user_mappings := st.user_mappings ++ [(git_name, ⟨canonical_name, none⟩)] }

/-- Embedding of `UserManager.get_canonical_name`: the mapped canonical name
when the key is known, otherwise the raw name itself. -/
def get_canonical_name (st : UMState) (git_name : String) : String :=
  match lookup st.user_mappings git_name with
  | some e => e.canonical_name
  | none => git_name

/-- Model of `PIL.Image.thumbnail((128, 128))`: no change when the image
already fits, otherwise an aspect-preserving shrink into the 128x128 box
(rounded, at least 1 pixel). The claims below depend only on the fact that
the result is then padded to a square. -/
def thumbnail128 (img : Img) : Nat × Nat :=
  if img.width ≤ 128 && img.height ≤ 128 then (img.width, img.height)
  else if img.height ≤ img.width then
    (128, max 1 ((128 * img.height + img.width / 2) / img.width))
  else
    (max 1 ((128 * img.width + img.height / 2) / img.height), 128)

/-- The destination file name `set_user_avatar` derives: the hash of the
canonical name (MD5 hex digest in the source, carried here as the function
`hashFn`) with the `.png` suffix. -/
def avatarDest (hashFn : String → String) (canonical_name : String) : String :=
  hashFn canonical_name ++ ".png"

/-- The file `set_user_avatar` writes: the thumbnail padded (transparent
fill) to a square canvas of side `max(width, height)`, saved as PNG. -/
def processAvatar (img : Img) : SavedImage :=
  let t := thumbnail128 img
  let s := max t.1 t.2
  ⟨s, s, "PNG"⟩

/-- Embedding of `UserManager.set_user_avatar` for a source image that exists
(a missing source raises before any state change): write the processed square
PNG to the derived destination, then point every mapping entry whose
`canonical_name` matches at that destination. -/
def set_user_avatar (hashFn : String → String) (st : UMState) (canonical_name : String)
    (img : Img) : UMState :=
  { user_mappings := st.user_mappings.map
      (fun p => if p.2.canonical_name = canonical_name
        then (p.1, { p.2 with avatar := some (avatarDest hashFn canonical_name) }) else p),
    avatar_files := setAssoc st.avatar_files (avatarDest hashFn canonical_name) (processAvatar img) }

/-- The store states reachable from the fresh store through the public
mutating operations, with `add_user_mapping` used under its documented
precondition of non-empty strings. -/
inductive Reachable (hashFn : String → String) : UMState → Prop where
  | empty : Reachable hashFn emptyUM
  | add {st : UMState} {g c : String} :
      Reachable hashFn st → g ≠ "" → c ≠ "" → Reachable hashFn (add_user_mapping st g c)
  | setAvatar {st : UMState} {c : String} {img : Img} :
      Reachable hashFn st → Reachable hashFn (set_user_avatar hashFn st c img)

/-- A written avatar file is a square PNG. -/
def SquarePng (f : SavedImage) : Prop :=
  f.width = f.height ∧ f.format = "PNG"

/-- The Identity Store invariant of the specification: every entry has a
non-empty canonical name, and every set `avatar` field names a file that
exists in the avatar directory and is a square PNG. -/
def StoreInvariant (st : UMState) : Prop :=
  (∀ p ∈ st.user_mappings, p.2.canonical_name ≠ "") ∧
  (∀ p ∈ st.user_mappings, ∀ q, p.2.avatar = some q →
    ∃ f, lookup st.avatar_files q = some f ∧ SquarePng f)

/-- Modelled from the spec: the rewriting §4.2 attributes to the Log Line
Filter — contributor replaced by the Identity Store canonical name and the
path prefixed with `<repo>/`. Present only to compare the specification's
claim with the code's behavior; `_filter_log_by_date` itself contains no such
rewriting. -/
def specRewriteLine (st : UMState) (repo : String) (line : String) : String :=
  match splitOnChar '|' line.data with
  | [ts, user, action, path] =>
    String.mk ts ++ "|" ++ get_canonical_name st (String.mk user) ++ "|"
      ++ String.mk action ++ "|" ++ repo ++ "/" ++ String.mk path
  | _ => line

/-- Range satisfaction against an optional lower bound, as the specification
words it: an absent bound is negative infinity. -/
def lowerOk : Option ℚ → ℚ → Prop
  | none, _ => True
  | some l, t => l ≤ t

/-- Range satisfaction against an optional upper bound, as the specification
words it: an absent bound is positive infinity. -/
def upperOk : Option ℚ → ℚ → Prop
  | none, _ => True
  | some u, t => t ≤ u

theorem lookup_cons {α : Type} (p : String × α) (t : List (String × α)) (k : String) :
    lookup (p :: t) k = if p.1 = k then some p.2 else lookup t k := by
  by_cases h : p.1 = k <;> simp [lookup, List.find?_cons, h]

theorem hasKey_cons {α : Type} (p : String × α) (t : List (String × α)) (k : String) :
    hasKey (p :: t) k = (decide (p.1 = k) || hasKey t k) := rfl

theorem lookup_eq_none_of_not_hasKey {α : Type} (l : List (String × α)) (k : String)
    (h : hasKey l k = false) : lookup l k = none := by
  induction l with
  | nil => rfl
  | cons p t ih =>
    rw [hasKey_cons, Bool.or_eq_false_iff] at h
    have hp : p.1 ≠ k := by simpa using h.1
    rw [lookup_cons, if_neg hp]
    exact ih h.2

theorem hasKey_of_lookup_some {α : Type} {l : List (String × α)} {k : String} {v : α}
    (h : lookup l k = some v) : hasKey l k = true := by
  by_contra hc
  rw [lookup_eq_none_of_not_hasKey l k (Bool.eq_false_iff.mpr hc)] at h
  exact Option.noConfusion h

theorem lookup_map_modify_self {α : Type} (l : List (String × α)) (k : String) (g : α → α) :
    lookup (l.map fun p => if p.1 = k then (p.1, g p.2) else p) k = (lookup l k).map g := by
  induction l with
  | nil => rfl
  | cons p t ih =>
    rw [List.map_cons]
    by_cases hpk : p.1 = k <;> simp [lookup_cons, hpk, ih]

theorem lookup_map_modify_ne {α : Type} (l : List (String × α)) (k k' : String) (g : α → α)
    (h : k' ≠ k) :
    lookup (l.map fun p => if p.1 = k then (p.1, g p.2) else p) k' = lookup l k' := by
  induction l with
  | nil => rfl
  | cons p t ih =>
    rw [List.map_cons]
    by_cases hpk : p.1 = k
    · simp [lookup_cons, hpk, Ne.symm h, ih]
    · simp [lookup_cons, hpk, ih]

theorem keys_map_modify {α : Type} (l : List (String × α)) (k : String) (g : α → α) :
    ((l.map fun p => if p.1 = k then (p.1, g p.2) else p).map Prod.fst) = l.map Prod.fst := by
  induction l with
  | nil => rfl
  | cons p t ih =>
    rw [List.map_cons]
    by_cases hpk : p.1 = k <;> simp [hpk, ih]

theorem lookup_map_set_self {α : Type} (l : List (String × α)) (k : String) (v : α)
    (h : hasKey l k = true) :
    lookup (l.map fun p => if p.1 = k then (k, v) else p) k = some v := by
  induction l with
  | nil => simp [hasKey] at h
  | cons p t ih =>
    rw [List.map_cons]
    by_cases hpk : p.1 = k
    · simp [lookup_cons, hpk]
    · rw [hasKey_cons] at h
      simp only [hpk, decide_False, Bool.false_or] at h
      simp [lookup_cons, hpk, ih h]

theorem lookup_map_set_ne {α : Type} (l : List (String × α)) (k k' : String) (v : α)
    (h : k' ≠ k) :
    lookup (l.map fun p => if p.1 = k then (k, v) else p) k' = lookup l k' := by
  induction l with
  | nil => rfl
  | cons p t ih =>
    rw [List.map_cons]
    by_cases hpk : p.1 = k
    · simp [lookup_cons, hpk, Ne.symm h, ih]
    · simp [lookup_cons, hpk, ih]

theorem lookup_append_single_self {α : Type} (l : List (String × α)) (k : String) (v : α)
    (h : hasKey l k = false) : lookup (l ++ [(k, v)]) k = some v := by
  induction l with
  | nil => simp [lookup_cons]
  | cons p t ih =>
    rw [hasKey_cons, Bool.or_eq_false_iff] at h
    have hp : p.1 ≠ k := by simpa using h.1
    rw [List.cons_append, lookup_cons, if_neg hp]
    exact ih h.2

theorem lookup_append_single_ne {α : Type} (l : List (String × α)) (k k' : String) (v : α)
    (h : k' ≠ k) : lookup (l ++ [(k, v)]) k' = lookup l k' := by
  induction l with
  | nil => simp [lookup_cons, lookup, Ne.symm h]
  | cons p t ih =>
    rw [List.cons_append, lookup_cons, lookup_cons]
    by_cases hpk : p.1 = k' <;> simp [hpk, ih]

theorem lookup_setAssoc_self {α : Type} (l : List (String × α)) (k : String) (v : α) :
    lookup (setAssoc l k v) k = some v := by
  unfold setAssoc
  cases hk : hasKey l k with
  | false => simpa using lookup_append_single_self l k v hk
  | true => simpa using lookup_map_set_self l k v hk

theorem lookup_setAssoc_ne {α : Type} (l : List (String × α)) (k k' : String) (v : α)
    (h : k' ≠ k) : lookup (setAssoc l k v) k' = lookup l k' := by
  unfold setAssoc
  cases hk : hasKey l k with
  | false => simpa using lookup_append_single_ne l k k' v h
  | true => simpa using lookup_map_set_ne l k k' v h

theorem keys_map_set {α : Type} (l : List (String × α)) (k : String) (v : α) :
    ((l.map fun p => if p.1 = k then (k, v) else p).map Prod.fst) = l.map Prod.fst := by
  induction l with
  | nil => rfl
  | cons p t ih =>
    rw [List.map_cons]
    by_cases hpk : p.1 = k <;> simp [hpk, ih]

theorem keys_setAssoc_of_hasKey {α : Type} (l : List (String × α)) (k : String) (v : α)
    (h : hasKey l k = true) : (setAssoc l k v).map Prod.fst = l.map Prod.fst := by
  unfold setAssoc
  rw [h]
  simpa using keys_map_set l k v

theorem hasKey_setAssoc_self {α : Type} (l : List (String × α)) (k : String) (v : α) :
    hasKey (setAssoc l k v) k = true := by
  unfold setAssoc
  cases hk : hasKey l k with
  | false =>
    simp only [Bool.false_eq_true, if_false]
    simp [hasKey, List.any_append]
  | true =>
    simp only [if_true]
    induction l with
    | nil => simp [hasKey] at hk
    | cons p t ih =>
      rw [List.map_cons]
      by_cases hpk : p.1 = k
      · simp [hasKey_cons, hpk]
      · rw [hasKey_cons] at hk
        simp only [hpk, decide_False, Bool.false_or] at hk
        simp [hasKey_cons, hpk, ih hk]

theorem filter_eq_of_bound (start? end? : Option ℚ) (lines : List String)
    (h : start? ≠ none ∨ end? ≠ none) :
    filter_log_by_date start? end? lines
      = lines.filter (keepLine (lowerBound start?) (upperBound end?)) := by
  unfold filter_log_by_date
  cases start? <;> cases end? <;> simp_all

theorem pyLe_lowerBound_finite (o : Option ℚ) (t : ℚ) :
    (pyLe (lowerBound o) (PyFloat.finite t) = true) ↔ lowerOk o t := by
  cases o <;> simp [lowerBound, pyLe, lowerOk]

theorem pyLe_upperBound_finite (o : Option ℚ) (t : ℚ) :
    (pyLe (PyFloat.finite t) (upperBound o) = true) ↔ upperOk o t := by
  cases o <;> simp [upperBound, pyLe, upperOk]

theorem filter_self_idem (p : String → Bool) (l : List String) :
    (l.filter p).filter p = l.filter p := by
  induction l with
  | nil => rfl
  | cons a t ih =>
    cases hp : p a <;> simp [List.filter_cons, hp, ih]

/-- C2: for a line whose first pipe-delimited field parses as the numeric
timestamp `t`, and a range with at least one bound supplied, the filter keeps
the line exactly when `lower ≤ t ≤ upper`, closed at both ends, with an
absent bound acting as the corresponding infinity. -/
theorem filter_keeps_iff_in_closed_range (start? end? : Option ℚ) (lines : List String)
    (line : String) (t : ℚ)
    (hb : start? ≠ none ∨ end? ≠ none)
    (ht : parsePyFloat (timestampField line) = some (PyFloat.finite t)) :
    filter_log_by_date start? end? lines
        = lines.filter (keepLine (lowerBound start?) (upperBound end?)) ∧
    ((keepLine (lowerBound start?) (upperBound end?) line = true)
        ↔ lowerOk start? t ∧ upperOk end? t) := by
  refine ⟨filter_eq_of_bound start? end? lines hb, ?_⟩
  unfold keepLine
  rw [ht, Bool.and_eq_true, pyLe_lowerBound_finite, pyLe_upperBound_finite]

theorem filter_keeps_iff_in_closed_range_witness :
    ((some (0 : ℚ) ≠ none ∨ some (200 : ℚ) ≠ none) ∧
      parsePyFloat (timestampField "100|u|A|p") = some (PyFloat.finite 100)) ∧
    (filter_log_by_date (some 0) (some 200) ["100|u|A|p"]
        = ["100|u|A|p"].filter (keepLine (lowerBound (some 0)) (upperBound (some 200)))) ∧
    ((keepLine (lowerBound (some 0)) (upperBound (some 200)) "100|u|A|p" = true)
        ↔ lowerOk (some 0) 100 ∧ upperOk (some 200) 100) :=
  ⟨⟨Or.inl (by decide), by decide⟩,
    filter_keeps_iff_in_closed_range (some 0) (some 200) ["100|u|A|p"] "100|u|A|p" 100
      (Or.inl (by decide)) (by decide)⟩

/-- C3 counterexample: the line "100|u|A" has the wrong field count (three
fields instead of four) yet the filter keeps it, because the code only parses
the first field and never checks the field count. -/
theorem malformed_field_count_kept :
    filter_log_by_date (some 0) (some 200) ["100|u|A"] = ["100|u|A"] ∧
    ["100|u|A"] ≠ ([] : List String) := by
  constructor
  · decide
  · decide

/-- C3 amended: a line whose first pipe-delimited field fails to parse as a
float is silently skipped — it never appears in the output — and the filter
continues: every other line passing the range test still appears. Wrong field
count alone is not detected; a short line with a numeric first field is kept. -/
theorem nonnumeric_timestamp_line_skipped (start? end? : Option ℚ) (lines : List String)
    (line : String)
    (hb : start? ≠ none ∨ end? ≠ none)
    (hp : parsePyFloat (timestampField line) = none) :
    line ∉ filter_log_by_date start? end? lines ∧
    (∀ l ∈ lines, keepLine (lowerBound start?) (upperBound end?) l = true →
      l ∈ filter_log_by_date start? end? lines) := by
  rw [filter_eq_of_bound start? end? lines hb]
  constructor
  · intro hmem
    have hk := (List.mem_filter.mp hmem).2
    unfold keepLine at hk
    rw [hp] at hk
    exact Bool.noConfusion hk
  · intro l hl hkeep
    exact List.mem_filter.mpr ⟨hl, hkeep⟩

theorem nonnumeric_timestamp_line_skipped_witness :
    ((some (0 : ℚ) ≠ none ∨ some (200 : ℚ) ≠ none) ∧
      parsePyFloat (timestampField "abc|u|A|p") = none) ∧
    ("abc|u|A|p" ∉ filter_log_by_date (some 0) (some 200) ["abc|u|A|p", "100|u|A|p"] ∧
    (∀ l ∈ ["abc|u|A|p", "100|u|A|p"],
        keepLine (lowerBound (some 0)) (upperBound (some 200)) l = true →
        l ∈ filter_log_by_date (some 0) (some 200) ["abc|u|A|p", "100|u|A|p"])) :=
  ⟨⟨Or.inl (by decide), by decide⟩,
    nonnumeric_timestamp_line_skipped (some 0) (some 200) ["abc|u|A|p", "100|u|A|p"]
      "abc|u|A|p" (Or.inl (by decide)) (by decide)⟩

/-- C10: with at least one bound supplied, the output is a sublist of the
input lines (each output line is an input line, verbatim, in input order),
and re-filtering the output with the same range reproduces it. -/
theorem filter_sublist_and_idempotent (start? end? : Option ℚ) (lines : List String)
    (hb : start? ≠ none ∨ end? ≠ none) :
    List.Sublist (filter_log_by_date start? end? lines) lines ∧
    filter_log_by_date start? end? (filter_log_by_date start? end? lines)
      = filter_log_by_date start? end? lines := by
  rw [filter_eq_of_bound start? end? lines hb,
    filter_eq_of_bound start? end? (lines.filter (keepLine (lowerBound start?) (upperBound end?))) hb]
  exact ⟨List.filter_sublist lines, filter_self_idem _ lines⟩

theorem filter_sublist_and_idempotent_witness :
    (some (0 : ℚ) ≠ none ∨ some (200 : ℚ) ≠ none) ∧
    (List.Sublist (filter_log_by_date (some 0) (some 200) ["999|x|A|p", "100|u|A|p"])
        ["999|x|A|p", "100|u|A|p"] ∧
    filter_log_by_date (some 0) (some 200)
        (filter_log_by_date (some 0) (some 200) ["999|x|A|p", "100|u|A|p"])
      = filter_log_by_date (some 0) (some 200) ["999|x|A|p", "100|u|A|p"]) :=
  ⟨Or.inl (by decide),
    filter_sublist_and_idempotent (some 0) (some 200) ["999|x|A|p", "100|u|A|p"]
      (Or.inl (by decide))⟩

/-- C1 counterexample: with the Identity Store mapping "jdoe" to "Jane Doe",
the spec's own scenario line is kept by the filter verbatim: the contributor
field is not rewritten and the path is not prefixed with the repository name
(the rewriting the spec describes would have produced a different line). -/
theorem filter_rewrite_counterexample :
    filter_log_by_date (some 1609459200) (some 1609459200) ["1609459200|jdoe|A|test.txt"]
        = ["1609459200|jdoe|A|test.txt"] ∧
    specRewriteLine (add_user_mapping emptyUM "jdoe" "Jane Doe") "repo"
        "1609459200|jdoe|A|test.txt" ≠ "1609459200|jdoe|A|test.txt" := by
  constructor
  · decide
  · decide

/-- C1 amended: every line the filter writes is one of the input lines,
character for character — `_filter_log_by_date` performs no contributor
rewriting via the Identity Store and no repository-name path prefixing
(`repo_name` only names the output file). -/
theorem kept_lines_written_verbatim (start? end? : Option ℚ) (lines : List String)
    (hb : start? ≠ none ∨ end? ≠ none) :
    ∀ l ∈ filter_log_by_date start? end? lines, l ∈ lines := by
  rw [filter_eq_of_bound start? end? lines hb]
  intro l hl
  exact (List.mem_filter.mp hl).1

theorem kept_lines_written_verbatim_witness :
    (some (1609459200 : ℚ) ≠ none ∨ (none : Option ℚ) ≠ none) ∧
    (∀ l ∈ filter_log_by_date (some 1609459200) none ["1609459200|jdoe|A|test.txt"],
      l ∈ ["1609459200|jdoe|A|test.txt"]) :=
  ⟨Or.inl (by decide),
    kept_lines_written_verbatim (some 1609459200) none ["1609459200|jdoe|A|test.txt"]
      (Or.inl (by decide))⟩


/-- C5 counterexample: in a timezone one hour east of UTC, the bound computed
for "2021-01-01" is 1609455600, one hour before the UTC-midnight epoch
1609459200, so the bound is not the epoch of UTC midnight. -/
theorem date_bound_not_utc_midnight :
    convert_to_timestamp 3600 "2021-01-01" = some 1609455600 ∧
    utc_midnight_epoch "2021-01-01" = some 1609459200 ∧
    convert_to_timestamp 3600 "2021-01-01" ≠ utc_midnight_epoch "2021-01-01" := by
  refine ⟨by decide, by decide, by decide⟩

/-- C5 amended: for a parseable `YYYY-MM-DD` bound the epoch value used is
that of local midnight — UTC midnight minus the local UTC offset — and it
equals the UTC-midnight epoch exactly when the local offset is zero. -/
theorem convert_to_timestamp_local_midnight (tz : Int) (s : String) (y m d : Nat)
    (h : parseDateYMD s = some (y, m, d)) :
    convert_to_timestamp tz s = some (daysFromCivil y m d * 86400 - tz) ∧
    (convert_to_timestamp tz s = utc_midnight_epoch s ↔ tz = 0) := by
  unfold convert_to_timestamp utc_midnight_epoch
  rw [h]
  refine ⟨rfl, ?_⟩
  simp only [Option.map_some', Option.some_inj]
  omega

theorem convert_to_timestamp_local_midnight_witness :
    parseDateYMD "2021-01-01" = some (2021, 1, 1) ∧
    (convert_to_timestamp 3600 "2021-01-01" = some (daysFromCivil 2021 1 1 * 86400 - 3600) ∧
      (convert_to_timestamp 3600 "2021-01-01" = utc_midnight_epoch "2021-01-01" ↔ (3600 : Int) = 0)) :=
  ⟨by decide, convert_to_timestamp_local_midnight 3600 "2021-01-01" 2021 1 1 (by decide)⟩

theorem join_cons_str (s : String) (l : List String) :
    String.join (s :: l) = s ++ String.join l := by
  apply String.ext
  simp [String.join_eq, String.data_append]

theorem combine_logs_aux (fs : String → Option String) (files : List String) :
    ∀ acc : String,
      files.foldl (fun acc f => match fs f with | some c => acc ++ c | none => acc) acc
        = acc ++ String.join (files.filterMap fs) := by
  induction files with
  | nil => intro acc; simp [String.join]
  | cons f t ih =>
    intro acc
    rw [List.foldl_cons, List.filterMap_cons]
    cases hf : fs f with
    | none => simpa [hf] using ih acc
    | some c =>
      simp only [hf]
      rw [ih (acc ++ c), join_cons_str, String.append_assoc]

/-- C9: the combined output is exactly the concatenation, in list order, of
the contents of the input paths that exist in the filesystem `fs`; paths
that do not exist contribute nothing (they are skipped, never an error). -/
theorem combine_logs_concatenation (fs : String → Option String) (files : List String) :
    combine_logs fs files = String.join (files.filterMap fs) ∧
    combine_logs fs files = combine_logs fs (files.filter (fun f => (fs f).isSome)) := by
  have key : ∀ (l : List String), combine_logs fs l = String.join (l.filterMap fs) := by
    intro l
    unfold combine_logs
    simpa using combine_logs_aux fs l ""
  refine ⟨key files, ?_⟩
  rw [key files, key (files.filter (fun f => (fs f).isSome))]
  congr 1
  induction files with
  | nil => rfl
  | cons f t ih =>
    cases hf : fs f <;> simp [List.filter_cons, List.filterMap_cons, hf, ih]

/-- C6: `get_canonical_name` is the identity on any raw identifier that is
not a key of the store, and after `add_user_mapping raw c` it returns `c`
for `raw`. -/
theorem get_canonical_name_contract (st : UMState) (raw c : String)
    (h : ∀ p ∈ st.user_mappings, p.1 ≠ raw) :
    get_canonical_name st raw = raw ∧
    get_canonical_name (add_user_mapping st raw c) raw = c := by
  have hk : hasKey st.user_mappings raw = false := by
    simp only [hasKey, List.any_eq_false, decide_eq_true_eq]
    exact h
  constructor
  · unfold get_canonical_name
    rw [lookup_eq_none_of_not_hasKey _ _ hk]
  · unfold add_user_mapping
    rw [if_neg (by rw [hk]; exact Bool.false_ne_true)]
    unfold get_canonical_name
    rw [show lookup ({ st with
        user_mappings := st.user_mappings ++ [(raw, ⟨c, none⟩)] } : UMState).user_mappings raw
      = some ⟨c, none⟩ from lookup_append_single_self _ _ _ hk]

theorem get_canonical_name_contract_witness :
    (∀ p ∈ emptyUM.user_mappings, p.1 ≠ "jdoe") ∧
    (get_canonical_name emptyUM "jdoe" = "jdoe" ∧
      get_canonical_name (add_user_mapping emptyUM "jdoe" "Jane Doe") "jdoe" = "Jane Doe") :=
  ⟨fun p hp => absurd hp (List.not_mem_nil p),
    get_canonical_name_contract emptyUM "jdoe" "Jane Doe"
      (fun p hp => absurd hp (List.not_mem_nil p))⟩

/-- C7: re-mapping an existing key replaces only that entry's canonical name:
the entry keeps its avatar, every other key's entry is untouched, the key
set is unchanged, and no avatar file is touched. -/
theorem add_mapping_updates_only_canonical (st : UMState) (k c' : String) (e : UserEntry)
    (h : lookup st.user_mappings k = some e) :
    lookup (add_user_mapping st k c').user_mappings k = some ⟨c', e.avatar⟩ ∧
    (∀ k', k' ≠ k →
      lookup (add_user_mapping st k c').user_mappings k' = lookup st.user_mappings k') ∧
    (add_user_mapping st k c').user_mappings.map Prod.fst = st.user_mappings.map Prod.fst ∧
    (add_user_mapping st k c').avatar_files = st.avatar_files := by
  have hk := hasKey_of_lookup_some h
  have hmap : (add_user_mapping st k c').user_mappings
      = st.user_mappings.map
          (fun p => if p.1 = k then (p.1, { p.2 with canonical_name := c' }) else p) := by
    unfold add_user_mapping
    rw [if_pos hk]
  have hfiles : (add_user_mapping st k c').avatar_files = st.avatar_files := by
    unfold add_user_mapping
    rw [if_pos hk]
  refine ⟨?_, ?_, ?_, hfiles⟩
  · rw [hmap, lookup_map_modify_self st.user_mappings k
      (fun a => { a with canonical_name := c' }), h]
    rfl
  · intro k' hk'
    rw [hmap]
    exact lookup_map_modify_ne st.user_mappings k k'
      (fun a => { a with canonical_name := c' }) hk'
  · rw [hmap]
    exact keys_map_modify st.user_mappings k (fun a => { a with canonical_name := c' })

theorem add_mapping_updates_only_canonical_witness :
    lookup (⟨[("jdoe", ⟨"Jane", some "a.png"⟩), ("bob", ⟨"Bob", none⟩)], []⟩ : UMState).user_mappings
        "jdoe" = some ⟨"Jane", some "a.png"⟩ ∧
    (lookup (add_user_mapping
          (⟨[("jdoe", ⟨"Jane", some "a.png"⟩), ("bob", ⟨"Bob", none⟩)], []⟩ : UMState)
          "jdoe" "Janet").user_mappings "jdoe" = some ⟨"Janet", some "a.png"⟩ ∧
      (∀ k', k' ≠ "jdoe" →
        lookup (add_user_mapping
            (⟨[("jdoe", ⟨"Jane", some "a.png"⟩), ("bob", ⟨"Bob", none⟩)], []⟩ : UMState)
            "jdoe" "Janet").user_mappings k'
          = lookup (⟨[("jdoe", ⟨"Jane", some "a.png"⟩), ("bob", ⟨"Bob", none⟩)], []⟩
              : UMState).user_mappings k') ∧
      (add_user_mapping
          (⟨[("jdoe", ⟨"Jane", some "a.png"⟩), ("bob", ⟨"Bob", none⟩)], []⟩ : UMState)
          "jdoe" "Janet").user_mappings.map Prod.fst
        = (⟨[("jdoe", ⟨"Jane", some "a.png"⟩), ("bob", ⟨"Bob", none⟩)], []⟩
            : UMState).user_mappings.map Prod.fst ∧
      (add_user_mapping
          (⟨[("jdoe", ⟨"Jane", some "a.png"⟩), ("bob", ⟨"Bob", none⟩)], []⟩ : UMState)
          "jdoe" "Janet").avatar_files
        = (⟨[("jdoe", ⟨"Jane", some "a.png"⟩), ("bob", ⟨"Bob", none⟩)], []⟩
            : UMState).avatar_files) :=
  ⟨by decide,
    add_mapping_updates_only_canonical
      (⟨[("jdoe", ⟨"Jane", some "a.png"⟩), ("bob", ⟨"Bob", none⟩)], []⟩ : UMState)
      "jdoe" "Janet" ⟨"Jane", some "a.png"⟩ (by decide)⟩

theorem set_avatar_marks_matching (hashFn : String → String) (st : UMState) (c : String)
    (img : Img) :
    ∀ p ∈ (set_user_avatar hashFn st c img).user_mappings,
      p.2.canonical_name = c → p.2.avatar = some (avatarDest hashFn c) := by
  intro p hp hc
  simp only [set_user_avatar, List.mem_map] at hp
  obtain ⟨q, hq, rfl⟩ := hp
  by_cases hqc : q.2.canonical_name = c
  · rw [if_pos hqc]
  · rw [if_neg hqc] at hc
    exact absurd hc hqc

/-- C8: the avatar destination file is derived from the canonical name alone,
so a second `set_user_avatar` for the same canonical name writes the same
file (the key set of the avatar directory does not grow — an overwrite, with
the second image's processed content), and after each call every mapping
entry whose canonical name matches points at that same derived path. -/
theorem set_avatar_hash_stable_and_fanout (hashFn : String → String) (st : UMState)
    (c : String) (img1 img2 : Img) :
    (set_user_avatar hashFn (set_user_avatar hashFn st c img1) c img2).avatar_files.map Prod.fst
        = (set_user_avatar hashFn st c img1).avatar_files.map Prod.fst ∧
    lookup (set_user_avatar hashFn (set_user_avatar hashFn st c img1) c img2).avatar_files
        (avatarDest hashFn c) = some (processAvatar img2) ∧
    (∀ p ∈ (set_user_avatar hashFn st c img1).user_mappings,
        p.2.canonical_name = c → p.2.avatar = some (avatarDest hashFn c)) ∧
    (∀ p ∈ (set_user_avatar hashFn (set_user_avatar hashFn st c img1) c img2).user_mappings,
        p.2.canonical_name = c → p.2.avatar = some (avatarDest hashFn c)) := by
  have h1 : (set_user_avatar hashFn st c img1).avatar_files
      = setAssoc st.avatar_files (avatarDest hashFn c) (processAvatar img1) := rfl
  have h2 : (set_user_avatar hashFn (set_user_avatar hashFn st c img1) c img2).avatar_files
      = setAssoc (set_user_avatar hashFn st c img1).avatar_files (avatarDest hashFn c)
          (processAvatar img2) := rfl
  refine ⟨?_, ?_, set_avatar_marks_matching hashFn st c img1,
    set_avatar_marks_matching hashFn (set_user_avatar hashFn st c img1) c img2⟩
  · rw [h2]
    apply keys_setAssoc_of_hasKey
    rw [h1]
    exact hasKey_setAssoc_self _ _ _
  · rw [h2]
    exact lookup_setAssoc_self _ _ _

/-- C4: every store state reachable from the empty store through
`add_user_mapping` (called with non-empty strings) and `set_user_avatar`
satisfies the invariant: every entry has a non-empty canonical name, and
every set avatar path names an existing square PNG in the avatar directory. -/
theorem reachable_store_invariant (hashFn : String → String) (st : UMState)
    (h : Reachable hashFn st) : StoreInvariant st := by
  induction h with
  | empty =>
    exact ⟨fun p hp => absurd hp (List.not_mem_nil p),
      fun p hp => absurd hp (List.not_mem_nil p)⟩
  | @add st g c _ hg hc ih =>
    unfold add_user_mapping
    by_cases hk : hasKey st.user_mappings g = true
    · rw [if_pos hk]
      refine ⟨?_, ?_⟩
      · intro p hp
        simp only [List.mem_map] at hp
        obtain ⟨q, hq, rfl⟩ := hp
        by_cases hqg : q.1 = g
        · rw [if_pos hqg]
          exact hc
        · rw [if_neg hqg]
          exact ih.1 q hq
      · intro p hp a hav
        simp only [List.mem_map] at hp
        obtain ⟨q, hq, rfl⟩ := hp
        by_cases hqg : q.1 = g
        · rw [if_pos hqg] at hav
          exact ih.2 q hq a hav
        · rw [if_neg hqg] at hav
          exact ih.2 q hq a hav
    · rw [if_neg hk]
      refine ⟨?_, ?_⟩
      · intro p hp
        rcases List.mem_append.mp hp with h1 | h1
        · exact ih.1 p h1
        · rw [List.mem_singleton] at h1
          subst h1
          exact hc
      · intro p hp a hav
        rcases List.mem_append.mp hp with h1 | h1
        · exact ih.2 p h1 a hav
        · rw [List.mem_singleton] at h1
          subst h1
          exact absurd hav (by simp)
  | @setAvatar st c img _ ih =>
    refine ⟨?_, ?_⟩
    · intro p hp
      simp only [set_user_avatar, List.mem_map] at hp
      obtain ⟨q, hq, rfl⟩ := hp
      by_cases hqc : q.2.canonical_name = c
      · rw [if_pos hqc]
        show q.2.canonical_name ≠ ""
        exact ih.1 q hq
      · rw [if_neg hqc]
        exact ih.1 q hq
    · intro p hp a hav
      simp only [set_user_avatar, List.mem_map] at hp
      obtain ⟨q, hq, rfl⟩ := hp
      have hfiles : (set_user_avatar hashFn st c img).avatar_files
          = setAssoc st.avatar_files (avatarDest hashFn c) (processAvatar img) := rfl
      rw [hfiles]
      by_cases hqc : q.2.canonical_name = c
      · rw [if_pos hqc] at hav
        have ha : a = avatarDest hashFn c := (Option.some.inj hav).symm
        subst ha
        exact ⟨processAvatar img, lookup_setAssoc_self _ _ _, rfl, rfl⟩
      · rw [if_neg hqc] at hav
        obtain ⟨f, hf, hsq⟩ := ih.2 q hq a hav
        by_cases ha : a = avatarDest hashFn c
        · subst ha
          exact ⟨processAvatar img, lookup_setAssoc_self _ _ _, rfl, rfl⟩
        · exact ⟨f, by rw [lookup_setAssoc_ne _ _ _ _ ha]; exact hf, hsq⟩

theorem reachable_store_invariant_witness :
    StoreInvariant (set_user_avatar (fun s => s)
      (add_user_mapping emptyUM "jdoe" "Jane Doe") "Jane Doe" ⟨200, 100⟩) :=
  reachable_store_invariant (fun s => s) _
    (Reachable.setAvatar (Reachable.add Reachable.empty (by decide) (by decide)))


end GitViz
